import Mathlib

set_option maxRecDepth 20000

/-!
Verification of the data-preparation pipeline of `DefaultLearner`
(`src/tabular/src/autogluon/tabular/learner/default_learner.py`).

The Python code is shallowly embedded: a label series is a `List Nat`
(each natural number standing for one raw class value), frames are given
per claim as the minimal structure the corresponding method reads and
writes, Python `float` arithmetic is carried out exactly in `ℚ`, and a
Python function that can raise is embedded as `Except`.
-/

namespace AutogluonLearner

instance {ε α : Type} [DecidableEq ε] [DecidableEq α] : DecidableEq (Except ε α) := fun a b =>
  match a, b with
  | .ok x, .ok y =>
    if h : x = y then .isTrue (by rw [h]) else .isFalse (by intro hc; cases hc; exact h rfl)
  | .error e, .error f =>
    if h : e = f then .isTrue (by rw [h]) else .isFalse (by intro hc; cases hc; exact h rfl)
  | .ok _, .error _ => .isFalse (by intro hc; cases hc)
  | .error _, .ok _ => .isFalse (by intro hc; cases hc)

/-- Problem types relevant to `DefaultLearner` branching
(`BINARY`, `MULTICLASS`, `REGRESSION`, `QUANTILE` constants). -/
inductive ProblemType
  | binary
  | multiclass
  | regression
  | quantile
deriving DecidableEq, Repr

/-- Helper for `uniqueInOrder`: distinct values of the list that are not
in `seen`, in order of first appearance. -/
def uniqueInOrderAux (seen : List Nat) : List Nat → List Nat
  | [] => []
  | c :: rest =>
    if c ∈ seen then uniqueInOrderAux seen rest
    else c :: uniqueInOrderAux (c :: seen) rest

/-- The distinct values of a list in order of first appearance, as the
hash-table iteration order underlying `pandas.Series.value_counts`. -/
def uniqueInOrder (y : List Nat) : List Nat :=
  uniqueInOrderAux [] y

/-- Stable descending insertion (by count, the second component):
`p` goes before the first entry whose count is not larger. -/
def insertDesc (p : Nat × Nat) : List (Nat × Nat) → List (Nat × Nat)
  | [] => [p]
  | q :: rest => if p.2 < q.2 then q :: insertDesc p rest else p :: q :: rest

/-- Stable insertion sort by descending count. -/
def sortCountsDesc : List (Nat × Nat) → List (Nat × Nat)
  | [] => []
  | p :: rest => insertDesc p (sortCountsDesc rest)

/-- Python `y.value_counts()`: pairs `(class, count)` sorted by descending
count, ties kept in first-appearance order. -/
def value_counts (y : List Nat) : List (Nat × Nat) :=
  sortCountsDesc ((uniqueInOrder y).map (fun c => (c, y.count c)))

/-- Python `math.ceil(total_rows * 0.975)` of line 438, carried out exactly in `ℚ`
(for all realistic sizes the Python float computation agrees). -/
def minimum_rows_to_keep (total_rows : Nat) : Nat :=
  Nat.ceil ((975 : ℚ) / 1000 * total_rows)

/-- The greedy loop of `_adjust_threshold_if_necessary` (lines 449-457):
walk the descending count table accumulating rows and classes, and stop at
the first class where both minimums hold; `cur` is the running
`new_threshold` (Python `None` before the first iteration). -/
def greedyThreshold : List (Nat × Nat) → Nat → Nat → Nat → Option Nat → Option Nat
  | [], _, _, _, cur => cur
  | p :: rest, minRows, accRows, accCls, _ =>
    if minRows ≤ accRows + p.2 ∧ 2 ≤ accCls + 1 then some p.2
    else greedyThreshold rest minRows (accRows + p.2) (accCls + 1) (some p.2)

/-- Embeds `DefaultLearner._adjust_threshold_if_necessary` (lines 418-459).
The returned threshold is an `Option Nat` because the greedy branch
initialises Python's `new_threshold = None`; an empty `y` makes
`1 / num_rows` raise `ZeroDivisionError`, embedded as `.error`. -/
def _adjust_threshold_if_necessary (pt : ProblemType) (y : List Nat)
    (threshold : Nat) (holdout_frac : ℚ) (num_bag_folds : Nat) :
    Except String (Option Nat × ℚ × Nat) :=
  let num_rows := y.length
  if num_rows = 0 then .error "ZeroDivisionError: division by zero" else
  let holdout_frac := max holdout_frac (1 / (num_rows : ℚ) + 1 / 1000)
  let num_bag_folds := min num_bag_folds num_rows
  let minimum_safe_threshold := if num_bag_folds < 2 then 1 else 2
  let new_threshold :=
    if threshold < minimum_safe_threshold then minimum_safe_threshold else threshold
  if pt = .regression ∨ pt = .quantile then
    .ok (some new_threshold, holdout_frac, num_bag_folds)
  else
    let class_counts := value_counts y
    let total_rows := (class_counts.map (fun p => p.2)).sum
    let minRows := minimum_rows_to_keep total_rows
    let class_counts_valid := class_counts.filter (fun p => decide (new_threshold ≤ p.2))
    let num_rows_valid := (class_counts_valid.map (fun p => p.2)).sum
    let num_classes_valid := class_counts_valid.length
    if minRows ≤ num_rows_valid ∧ 2 ≤ num_classes_valid then
      .ok (some new_threshold, holdout_frac, num_bag_folds)
    else
      .ok (greedyThreshold class_counts minRows 0 0 none, holdout_frac, num_bag_folds)

/-- Embeds `DefaultLearner.adjust_threshold_if_necessary` (lines 406-416): calls
the core and only logs warnings about changed outputs, so its value is the
core's value. -/
def adjust_threshold_if_necessary (pt : ProblemType) (y : List Nat)
    (threshold : Nat) (holdout_frac : ℚ) (num_bag_folds : Nat) :
    Except String (Option Nat × ℚ × Nat) :=
  _adjust_threshold_if_necessary pt y threshold holdout_frac num_bag_folds

/-- Rows retained when every class whose count is below `t` is dropped:
the sum of the counts that are at least `t`. -/
def keptRows (y : List Nat) (t : Nat) : Nat :=
  (((value_counts y).filter (fun p => decide (t ≤ p.2))).map (fun p => p.2)).sum

/-- Classes retained when every class whose count is below `t` is dropped. -/
def keptClasses (y : List Nat) (t : Nat) : Nat :=
  ((value_counts y).filter (fun p => decide (t ≤ p.2))).length

/-- The descending-count order on entries of a count table. -/
def descBySnd (a b : Nat × Nat) : Prop := b.2 ≤ a.2

instance : DecidableRel descBySnd := fun a b => Nat.decLe b.2 a.2

/-- The balance class-weight table of `set_predefined_weights`
(lines 333-337): `class_weights[c] = n / (class_counts[c] * k)` with
`n = len(y)` and `k` the number of classes. -/
def class_weights (y : List Nat) : List (Nat × ℚ) :=
  let class_counts := value_counts y
  let n := y.length
  let k := class_counts.length
  class_counts.map (fun p => (p.1, (n : ℚ) / (p.2 * k)))

/-- Weight of one raw class value under the balance strategy (Python
`y.map(self.class_weights)`; a value absent from the table maps to the
missing marker, modelled as 0, which no value of `y` ever hits). -/
def balance_weight (cw : List (Nat × ℚ)) (v : Nat) : ℚ :=
  (((cw.find? (fun p => p.1 == v)).map (fun p => p.2)).getD 0)

/-- Sample-weight configuration values of the learner (`self.sample_weight`):
the predefined strategies `AUTO_WEIGHT`/`BALANCE_WEIGHT`, a user column, or
no weighting. -/
inductive SampleWeightStrategy
  | auto
  | balance
  | user
  | disabled
deriving DecidableEq

/-- Embeds `DefaultLearner.set_predefined_weights` (lines 325-344) at the level of
the label series: `.ok (none, cached)` models returning `X` unchanged,
otherwise the computed per-row weight column is bundled into `X` and the
class-weight table is cached on the learner. -/
def set_predefined_weights (sw : SampleWeightStrategy) (pt : ProblemType)
    (sample_weight_col_in_X : Bool) (cached : Option (List (Nat × ℚ))) (y : List Nat) :
    Except String (Option (List ℚ) × Option (List (Nat × ℚ))) :=
  if ¬(sw = .auto ∨ sw = .balance) ∨ ¬(pt = .binary ∨ pt = .multiclass) then
    .ok (none, cached)
  else if sample_weight_col_in_X then
    .error "Column name cannot appear in your dataset with predefined weighting strategy"
  else
    match sw with
    | .balance =>
      let cw := cached.getD (class_weights y)
      .ok (some (y.map (fun v => balance_weight cw v)), some cw)
    | _ => .error "auto_weight strategy not yet supported"

/-- A raw label cell as pandas sees it: a finite numeric value, `NaN`,
`+inf`, `-inf`, or a missing value (Python `None`). -/
inductive LabelVal
  | fin (q : ℚ)
  | nan
  | inf
  | ninf
  | missing
deriving DecidableEq

/-- Python `X[self.label].replace([np.inf, -np.inf], np.nan)` on one cell. -/
def replaceInfWithNan : LabelVal → LabelVal
  | .inf => .nan
  | .ninf => .nan
  | v => v

/-- Python `Series.isna` on one cell: `NaN` and missing values are NA. -/
def isna : LabelVal → Bool
  | .nan => true
  | .missing => true
  | _ => false

/-- Embeds `DefaultLearner._check_for_non_finite_values` (lines 346-359). A split
is its label column: a list of `(row key, label value)` pairs (feature
columns are never read). The check works on a deep copy of the frame, maps
infinities to `NaN`, and raises on the first NA label; the raised
`ValueError`'s interpolated data is modelled as the pair
`(dataset name, first invalid row key)`. `hasLabel` is
`X is not None and self.label in X.columns`. -/
def _check_for_non_finite_values (name : String) (is_train : Bool) (hasLabel : Bool)
    (rows : List (Nat × LabelVal)) : Except (String × Nat) (List (Nat × LabelVal)) :=
  if is_train ∨ hasLabel then
    let rows2 := rows.map (fun r => (r.1, replaceInfWithNan r.2))
    match rows2.find? (fun r => isna r.2) with
    | some r => .error (name, r.1)
    | none => .ok rows2
  else
    .ok rows

/-- A cell of the bundled sample-weight column: a weight or `NaN`. -/
inductive WVal
  | nan
  | val (q : ℚ)
deriving DecidableEq

/-- A frame as `bundle_weights` sees it: its row count and its named
columns (only the weight column is ever appended). -/
structure BFrame where
  nrows : Nat
  cols : List (String × List WVal)
deriving DecidableEq

/-- Embeds `DefaultLearner.bundle_weights` (lines 306-323). The raised
`ValueError`'s interpolated data is modelled as the pair
`(sample_weight column name, dataset name)`. -/
def bundle_weights (weight_evaluation : Bool) (sample_weight : String)
    (name : String) (is_train : Bool) (X : Option BFrame) (w : Option (List ℚ)) :
    Except (String × String) (Option BFrame) :=
  if is_train then
    match X, w with
    | some F, some wv =>
      .ok (some { F with cols := F.cols ++ [(sample_weight, wv.map (fun q => WVal.val q))] })
    | _, _ => .ok X
  else
    match X with
    | none => .ok none
    | some F =>
      match w with
      | some wv =>
        .ok (some { F with cols := F.cols ++ [(sample_weight, wv.map (fun q => WVal.val q))] })
      | none =>
        if ¬ weight_evaluation then
          .ok (some { F with cols := F.cols ++ [(sample_weight, List.replicate F.nrows WVal.nan)] })
        else
          .error (sample_weight, name)

/-- A validation/test frame as `_apply_cleaner_transform` sees it: its
label column when present (one raw label per row); feature and weight
columns are abstracted away (see `mkw` below). -/
structure CFrame where
  labelCol : Option (List Nat)
deriving DecidableEq

/-- Embeds `DefaultLearner._apply_cleaner_transform` (lines 361-404). Here `keep` is
the fitted cleaner's class predicate — `Cleaner.transform` keeps exactly
the rows of retained classes — `enc` the fitted label cleaner's encoding,
and `mkw` abstracts `set_predefined_weights` + `extract_column` on the
cleaned encoded labels. On an emptied split the frame is discarded and the
holdout fraction reverts to `holdout_frac_og`. -/
def _apply_cleaner_transform (keep : Nat → Bool) (enc : Nat → Nat)
    (mkw : List Nat → Option (List ℚ)) (X : Option CFrame)
    (holdout_frac holdout_frac_og : ℚ) (name : String) (is_test : Bool) :
    Except String (Option CFrame × Option (List Nat) × Option (List ℚ) × ℚ) :=
  match X with
  | some F =>
    match F.labelCol with
    | some y_og =>
      let cleaned := y_og.filter keep
      if is_test ∧ cleaned.length ≠ y_og.length then
        .error (name ++ " cannot have low frequency classes!")
      else if cleaned.length = 0 then
        .ok (none, none, none, holdout_frac_og)
      else
        .ok (some { labelCol := none }, some (cleaned.map enc),
          mkw (cleaned.map enc), holdout_frac)
    | none => .ok (X, none, none, holdout_frac)
  | none => .ok (none, none, none, holdout_frac)

/-- The feature-transformation pipeline state: unfit (`none`) before the
single fit, `some f` afterwards, where `f` is the fitted frame transform
(rows are abstract values). `transform` on an unfit generator is outside
every modelled path and returns the frame unchanged. -/
structure FeatureGenerator where
  fitted : Option (List Nat → List Nat)

/-- Python `FeatureGenerator.is_fit()`. -/
def FeatureGenerator.is_fit (g : FeatureGenerator) : Bool := g.fitted.isSome

/-- Python `FeatureGenerator.transform` on a frame of abstract rows. -/
def FeatureGenerator.transform (g : FeatureGenerator) (X : List Nat) : List Nat :=
  match g.fitted with
  | some f => f X
  | none => X

/-- The fit-or-transform step of `general_data_processing` (lines 270-285):
when the generator already reports `is_fit()`, every present split goes
through `transform` only; otherwise a single combined `fit_transform`
learns the transform from the concatenated data (`learn` models the
fitting algorithm of `fit_transform_features`) and the held-out test split
is then transformed by the now-fit generator. Returns the generator state
after the step with the processed `X_super` and `X_test`. -/
def gdp_feature_step (learn : List Nat → (List Nat → List Nat))
    (g : FeatureGenerator) (X_super : List Nat) (X_test : Option (List Nat)) :
    FeatureGenerator × List Nat × Option (List Nat) :=
  if g.is_fit then
    (g, g.transform X_super, X_test.map (fun xt => g.transform xt))
  else
    let f := learn X_super
    let g2 : FeatureGenerator := { fitted := some f }
    (g2, f X_super, X_test.map (fun xt => g2.transform xt))

/-- One split for the concatenate-then-resplit step of
`general_data_processing`: the pandas row index and the row payloads (one
abstract value per row; a well-formed frame has one index entry per row,
which the claim's statements track via `rows.length`). -/
structure SFrame where
  index : List Nat
  rows : List Nat
deriving DecidableEq

/-- Python `pd.concat(datasets, ignore_index=True)` (line 268): present splits
contribute their rows in order, absent (`None`) splits are skipped. -/
def concatRows (datasets : List (Option SFrame)) : List Nat :=
  ((datasets.filterMap id).map (fun F => F.rows)).join

/-- The re-slicing loop of lines 287-292: `X_super.iloc[idx : idx + length]`
positional slices restore each split's original row count, and
`set_index(datasets[i].index)` restores its original row index; `None`
entries are left alone and `idx` advances only over present splits. -/
def resplit (xs : List Nat) : Nat → List (Option SFrame) → List (Option SFrame)
  | _, [] => []
  | idx, none :: rest => none :: resplit xs idx rest
  | idx, some F :: rest =>
      some { index := F.index, rows := (xs.drop idx).take F.rows.length } ::
        resplit xs (idx + F.rows.length) rest

/-- The concatenate-transform-resplit step of `general_data_processing`
(lines 267-294), abstracted over the generator's frame transform `f`
(`transform` or `fit_transform` of the feature generator). -/
def concat_then_resplit (f : List Nat → List Nat) (datasets : List (Option SFrame)) :
    List (Option SFrame) :=
  resplit (f (concatRows datasets)) 0 datasets

/-- How one output split must relate to its input split: absent stays
absent; a present split keeps its row count and its exact row index. -/
def SplitMatches : Option SFrame → Option SFrame → Prop
  | none, none => True
  | some F, some G => G.index = F.index ∧ G.rows.length = F.rows.length
  | _, _ => False

/-- The holdout-fraction data flow of `general_data_processing`
(lines 210-243): the caller's fraction is saved as `holdout_frac_og`,
forced to 1 when a validation frame with the label column is supplied,
threaded through `adjust_threshold_if_necessary` on the training labels,
then through `_apply_cleaner_transform` on the validation split; the
result is the holdout fraction `general_data_processing` returns. -/
def gdp_holdout_frac (pt : ProblemType) (y : List Nat) (threshold : Nat)
    (holdout_frac : ℚ) (num_bag_folds : Nat) (keep : Nat → Bool) (enc : Nat → Nat)
    (mkw : List Nat → Option (List ℚ)) (X_val : Option CFrame) :
    Except String ℚ := do
  let holdout_frac_og := holdout_frac
  let holdout_frac :=
    if (X_val.map (fun F => F.labelCol.isSome)).getD false then 1 else holdout_frac
  let r ← adjust_threshold_if_necessary pt y threshold holdout_frac num_bag_folds
  let r2 ← _apply_cleaner_transform keep enc mkw X_val r.2.1 holdout_frac_og "val" false
  return r2.2.2.2

/-- The label series of claim C2: three classes with counts 100, 50 and 1. -/
def yC2 : List Nat := List.replicate 100 0 ++ List.replicate 50 1 ++ [2]

/-- Python `total_rows = class_counts.sum()` of line 436. -/
def total_rows (y : List Nat) : Nat :=
  ((value_counts y).map (fun p => p.2)).sum

/-- The requested threshold after the minimum-safe clamp of lines 424-430:
`minimum_safe_threshold` is 2 under at least two (clamped) bagging folds,
else 1, and the request is raised to it if below. -/
def clamped_threshold (t k n : Nat) : Nat :=
  if t < (if min k n < 2 then 1 else 2) then (if min k n < 2 then 1 else 2) else t

/-- The threshold component returned by `_adjust_threshold_if_necessary`
on binary/multiclass problems. -/
def adjust_threshold_result (y : List Nat) (t k : Nat) : Option Nat :=
  if minimum_rows_to_keep (total_rows y) ≤ keptRows y (clamped_threshold t k y.length) ∧
      2 ≤ keptClasses y (clamped_threshold t k y.length) then
    some (clamped_threshold t k y.length)
  else greedyThreshold (value_counts y) (minimum_rows_to_keep (total_rows y)) 0 0 none

/-- Python `math.ceil(total_rows * 0.975)` as a natural-number formula. -/
theorem minimum_rows_to_keep_eq (t : Nat) :
    minimum_rows_to_keep t = (39 * t + 39) / 40 := by
  unfold minimum_rows_to_keep
  have h40 : ((975 : ℚ) / 1000 * t) = (39 * t : ℕ) / 40 := by push_cast; ring
  rw [h40]
  have hk := Nat.le_ceil (((39 * t : ℕ) : ℚ) / 40)
  rw [div_le_iff₀ (by norm_num : (0:ℚ) < 40)] at hk
  have hk3 : 39 * t ≤ Nat.ceil (((39 * t : ℕ) : ℚ) / 40) * 40 := by exact_mod_cast hk
  apply le_antisymm
  · rw [Nat.ceil_le, div_le_iff₀ (by norm_num : (0:ℚ) < 40)]
    have h : 39 * t ≤ ((39 * t + 39) / 40) * 40 := by omega
    exact_mod_cast h
  · omega

theorem uniqueInOrderAux_mem (a : Nat) :
    ∀ (l seen : List Nat), a ∈ uniqueInOrderAux seen l ↔ a ∈ l ∧ a ∉ seen := by
  intro l
  induction l with
  | nil => intro seen; simp [uniqueInOrderAux]
  | cons c rest ih =>
    intro seen
    by_cases hc : c ∈ seen
    · rw [uniqueInOrderAux, if_pos hc, ih]
      constructor
      · rintro ⟨ha, hs⟩; exact ⟨List.mem_cons_of_mem _ ha, hs⟩
      · rintro ⟨ha, hs⟩
        rcases List.mem_cons.mp ha with rfl | ha
        · exact absurd hc hs
        · exact ⟨ha, hs⟩
    · rw [uniqueInOrderAux, if_neg hc]
      simp only [List.mem_cons, ih]
      by_cases hac : a = c
      · subst hac; simp [hc]
      · simp [hac]

theorem uniqueInOrderAux_nodup :
    ∀ (l seen : List Nat), (uniqueInOrderAux seen l).Nodup := by
  intro l
  induction l with
  | nil => intro seen; simp [uniqueInOrderAux]
  | cons c rest ih =>
    intro seen
    by_cases hc : c ∈ seen
    · rw [uniqueInOrderAux, if_pos hc]; exact ih seen
    · rw [uniqueInOrderAux, if_neg hc]
      refine List.nodup_cons.mpr ⟨fun h => ?_, ih (c :: seen)⟩
      exact ((uniqueInOrderAux_mem c rest (c :: seen)).mp h).2 (List.mem_cons_self c seen)

theorem mem_uniqueInOrder (a : Nat) (y : List Nat) : a ∈ uniqueInOrder y ↔ a ∈ y := by
  rw [uniqueInOrder, uniqueInOrderAux_mem]
  simp

theorem uniqueInOrder_nodup (y : List Nat) : (uniqueInOrder y).Nodup :=
  uniqueInOrderAux_nodup y []

theorem sum_counts_uniqueInOrder (y : List Nat) :
    ((uniqueInOrder y).map (fun c => y.count c)).sum = y.length := by
  have hnd := uniqueInOrder_nodup y
  have hts : (uniqueInOrder y).toFinset = y.toFinset := by
    ext a
    simp [List.mem_toFinset, mem_uniqueInOrder]
  calc ((uniqueInOrder y).map (fun c => y.count c)).sum
      = (uniqueInOrder y).toFinset.sum (fun c => y.count c) :=
        (List.sum_toFinset _ hnd).symm
    _ = y.toFinset.sum (fun c => y.count c) := by rw [hts]
    _ = y.length := List.sum_toFinset_count_eq_length y

theorem insertDesc_perm (p : Nat × Nat) :
    ∀ l : List (Nat × Nat), List.Perm (insertDesc p l) (p :: l) := by
  intro l
  induction l with
  | nil => rfl
  | cons q rest ih =>
    rw [insertDesc]
    by_cases h : p.2 < q.2
    · rw [if_pos h]
      exact (ih.cons q).trans (List.Perm.swap p q rest)
    · rw [if_neg h]

theorem sortCountsDesc_perm :
    ∀ l : List (Nat × Nat), List.Perm (sortCountsDesc l) l := by
  intro l
  induction l with
  | nil => rfl
  | cons p rest ih =>
    rw [sortCountsDesc]
    exact (insertDesc_perm p (sortCountsDesc rest)).trans (ih.cons p)

theorem insertDesc_sorted (p : Nat × Nat) :
    ∀ l : List (Nat × Nat), l.Sorted descBySnd → (insertDesc p l).Sorted descBySnd := by
  intro l
  induction l with
  | nil => intro _; simp [insertDesc, List.sorted_singleton]
  | cons q rest ih =>
    intro hs
    rw [List.sorted_cons] at hs
    obtain ⟨hq, hrest⟩ := hs
    rw [insertDesc]
    by_cases h : p.2 < q.2
    · rw [if_pos h, List.sorted_cons]
      refine ⟨fun b hb => ?_, ih hrest⟩
      rcases List.mem_cons.mp ((insertDesc_perm p rest).mem_iff.mp hb) with rfl | hb
      · exact Nat.le_of_lt h
      · exact hq b hb
    · rw [if_neg h, List.sorted_cons]
      refine ⟨fun b hb => ?_, List.sorted_cons.mpr ⟨hq, hrest⟩⟩
      rcases List.mem_cons.mp hb with rfl | hb
      · exact Nat.le_of_not_lt h
      · exact Nat.le_trans (hq b hb) (Nat.le_of_not_lt h)

theorem sortCountsDesc_sorted : ∀ l : List (Nat × Nat), (sortCountsDesc l).Sorted descBySnd := by
  intro l
  induction l with
  | nil => simp [sortCountsDesc]
  | cons p rest ih =>
    rw [sortCountsDesc]
    exact insertDesc_sorted p _ ih

theorem value_counts_perm (y : List Nat) :
    List.Perm (value_counts y) ((uniqueInOrder y).map (fun c => (c, y.count c))) :=
  sortCountsDesc_perm _

theorem value_counts_sorted (y : List Nat) : (value_counts y).Sorted descBySnd :=
  sortCountsDesc_sorted _

theorem mem_value_counts {y : List Nat} {c m : Nat} :
    (c, m) ∈ value_counts y ↔ c ∈ y ∧ m = y.count c := by
  rw [(value_counts_perm y).mem_iff, List.mem_map]
  constructor
  · rintro ⟨d, hd, he⟩
    obtain ⟨rfl, rfl⟩ : d = c ∧ y.count d = m := by
      constructor <;> [exact congrArg Prod.fst he; exact congrArg Prod.snd he]
    exact ⟨(mem_uniqueInOrder _ _).mp hd, rfl⟩
  · rintro ⟨hc, rfl⟩
    exact ⟨c, (mem_uniqueInOrder _ _).mpr hc, rfl⟩

theorem value_counts_total (y : List Nat) :
    ((value_counts y).map (fun p => p.2)).sum = y.length := by
  have h := ((value_counts_perm y).map (fun p => p.2)).sum_eq
  rw [h, List.map_map]
  exact sum_counts_uniqueInOrder y

theorem value_counts_pos {y : List Nat} {p : Nat × Nat} (h : p ∈ value_counts y) :
    0 < p.2 := by
  obtain ⟨c, m⟩ := p
  obtain ⟨hc, rfl⟩ := mem_value_counts.mp h
  exact List.count_pos_iff.mpr hc

theorem value_counts_ne_nil {y : List Nat} (hy : y ≠ []) : value_counts y ≠ [] := by
  obtain ⟨c, hc⟩ := List.exists_mem_of_ne_nil y hy
  intro hvc
  have : (c, y.count c) ∈ value_counts y := mem_value_counts.mpr ⟨hc, rfl⟩
  rw [hvc] at this
  exact List.not_mem_nil _ this

theorem mem_class_weights {y : List Nat} {c : Nat} {w : ℚ}
    (h : (c, w) ∈ class_weights y) :
    c ∈ y ∧ w = (y.length : ℚ) / (y.count c * (value_counts y).length) := by
  rw [class_weights, List.mem_map] at h
  obtain ⟨⟨c', m'⟩, hp, he⟩ := h
  obtain ⟨hc, hm⟩ := mem_value_counts.mp hp
  have h1 : c' = c := congrArg Prod.fst he
  have h2 : ((y.length : ℚ) / (m' * (value_counts y).length)) = w := congrArg Prod.snd he
  subst h1
  rw [← h2, hm]
  exact ⟨hc, rfl⟩

/-- C4: under the balance strategy on binary/multiclass, every class `c`
gets weight `n / (count(c) * k)`, so `count(c) * weight(c) = n / k` is the
same for every pair of classes, exactly in rational arithmetic. -/
theorem C4_balance_weights_equalize (y : List Nat) (c₁ : Nat) (w₁ : ℚ) (c₂ : Nat) (w₂ : ℚ)
    (h₁ : (c₁, w₁) ∈ class_weights y) (h₂ : (c₂, w₂) ∈ class_weights y) :
    w₁ = (y.length : ℚ) / (y.count c₁ * (value_counts y).length) ∧
    (y.count c₁ : ℚ) * w₁ = (y.length : ℚ) / ((value_counts y).length : ℚ) ∧
    (y.count c₁ : ℚ) * w₁ = (y.count c₂ : ℚ) * w₂ := by
  obtain ⟨hc₁, hw₁⟩ := mem_class_weights h₁
  obtain ⟨hc₂, hw₂⟩ := mem_class_weights h₂
  have hk : value_counts y ≠ [] :=
    value_counts_ne_nil (fun hnil => by subst hnil; exact (List.not_mem_nil c₁) hc₁)
  have hkQ : ((value_counts y).length : ℚ) ≠ 0 :=
    Nat.cast_ne_zero.mpr (List.length_pos.mpr hk).ne'
  have hn₁ : ((y.count c₁ : ℚ)) ≠ 0 :=
    Nat.cast_ne_zero.mpr (List.count_pos_iff.mpr hc₁).ne'
  have hn₂ : ((y.count c₂ : ℚ)) ≠ 0 :=
    Nat.cast_ne_zero.mpr (List.count_pos_iff.mpr hc₂).ne'
  have key : ∀ c : Nat, (c ∈ y) → ((y.count c : ℚ)) ≠ 0 →
      (y.count c : ℚ) * ((y.length : ℚ) / (y.count c * (value_counts y).length)) =
        (y.length : ℚ) / ((value_counts y).length : ℚ) := by
    intro c _ hc0
    field_simp
    ring
  refine ⟨hw₁, ?_, ?_⟩
  · rw [hw₁]; exact key c₁ hc₁ hn₁
  · rw [hw₁, hw₂, key c₁ hc₁ hn₁, key c₂ hc₂ hn₂]

/-- Closed instance of `C4_balance_weights_equalize` on labels `[0, 0, 1]`:
weights 3/4 and 3/2, equal weighted class sums 3/2. -/
theorem C4_witness :
    ((0 : Nat), (3 : ℚ)/4) ∈ class_weights [0, 0, 1] ∧
    ((1 : Nat), (3 : ℚ)/2) ∈ class_weights [0, 0, 1] ∧
    (((List.count 0 [0, 0, 1] : Nat) : ℚ) * ((3 : ℚ)/4) =
      (((0, 0, 1) : Nat × Nat × Nat).1 + 3 : ℚ) / 2) ∧
    (((List.count 0 [0, 0, 1] : Nat) : ℚ) * ((3 : ℚ)/4) =
      ((List.count 1 [0, 0, 1] : Nat) : ℚ) * ((3 : ℚ)/2)) := by
  have hcw : class_weights [0, 0, 1] = [(0, (3 : ℚ)/(2 * 2)), (1, (3 : ℚ)/(1 * 2))] := by
    rw [class_weights]
    rw [show value_counts [0, 0, 1] = [(0, 2), (1, 1)] from by decide]
    norm_num
  have h₁ : ((0 : Nat), (3 : ℚ)/4) ∈ class_weights [0, 0, 1] := by
    rw [hcw]; norm_num
  have h₂ : ((1 : Nat), (3 : ℚ)/2) ∈ class_weights [0, 0, 1] := by
    rw [hcw]; norm_num
  have hmain := C4_balance_weights_equalize [0, 0, 1] 0 ((3 : ℚ)/4) 1 ((3 : ℚ)/2) h₁ h₂
  refine ⟨h₁, h₂, ?_, hmain.2.2⟩
  have := hmain.2.1
  rw [show value_counts [0, 0, 1] = [(0, 2), (1, 1)] from by decide] at this
  simpa using this

theorem find?_of_first {α : Type} (p : α → Bool) :
    ∀ (l : List α) (i : Nat) (hi : i < l.length),
      p (l.get ⟨i, hi⟩) = true →
      (∀ j (hj : j < i), p (l.get ⟨j, Nat.lt_trans hj hi⟩) = false) →
      l.find? p = some (l.get ⟨i, hi⟩) := by
  intro l
  induction l with
  | nil => intro i hi; exact absurd hi (Nat.not_lt_zero i)
  | cons a rest ih =>
    intro i hi hp hfirst
    match i with
    | 0 => simp only [List.get] at hp ⊢; rw [List.find?_cons_of_pos _ hp]
    | Nat.succ i' =>
      have ha : p a = false := hfirst 0 (Nat.succ_pos i')
      rw [List.find?_cons_of_neg _ (by simp [ha])]
      exact ih i' (Nat.lt_of_succ_lt_succ hi) hp
        (fun j hj => hfirst (j + 1) (Nat.succ_lt_succ hj))

/-- C7: on a training split whose label column has a NA or infinite value,
`_check_for_non_finite_values` raises, reporting the row key of the first
offending row (infinities count as missing after the `replace`); the
embedding is pure, matching the Python `copy.deepcopy` that keeps the
caller's frame unmodified. -/
theorem C7_first_invalid_label_reported (name : String) (hasLabel : Bool)
    (rows : List (Nat × LabelVal)) (i : Nat) (hi : i < rows.length)
    (hoff : isna (replaceInfWithNan (rows.get ⟨i, hi⟩).2) = true)
    (hfirst : ∀ j (hj : j < i), isna (replaceInfWithNan (rows.get ⟨j, Nat.lt_trans hj hi⟩).2) = false) :
    _check_for_non_finite_values name true hasLabel rows =
      .error (name, (rows.get ⟨i, hi⟩).1) := by
  rw [_check_for_non_finite_values, if_pos (Or.inl rfl)]
  have hlen : i < (rows.map (fun r => (r.1, replaceInfWithNan r.2))).length := by
    simpa using hi
  have hget : ∀ j (hj : j < rows.length),
      (rows.map (fun r => (r.1, replaceInfWithNan r.2))).get ⟨j, by simpa using hj⟩ =
        ((rows.get ⟨j, hj⟩).1, replaceInfWithNan (rows.get ⟨j, hj⟩).2) := by
    intro j hj
    simp
  have hfind := find?_of_first (fun r => isna r.2)
    (rows.map (fun r => (r.1, replaceInfWithNan r.2))) i hlen
    (by rw [hget i hi]; exact hoff)
    (by
      intro j hj
      rw [hget j (Nat.lt_trans hj hi)]
      exact hfirst j hj)
  simp only [hfind, hget i hi]

/-- Closed instance of `C7_first_invalid_label_reported`: the first invalid
label of `[(7, 1), (9, +inf), (4, NaN)]` is at row key 9. -/
theorem C7_witness :
    _check_for_non_finite_values "train" true true
      [(7, LabelVal.fin 1), (9, LabelVal.inf), (4, LabelVal.nan)] =
      .error ("train", 9) :=
  C7_first_invalid_label_reported "train" true
    [(7, LabelVal.fin 1), (9, LabelVal.inf), (4, LabelVal.nan)]
    1 (by decide) (by decide) (by decide)

/-- C8: a non-training split with no weight vector gains an all-`NaN`
weight column of the same row count when `weight_evaluation` is off, and
raises naming the weight column and the dataset when it is on. -/
theorem C8_bundle_weights_missing (sample_weight name : String) (F : BFrame) :
    bundle_weights false sample_weight name false (some F) none =
      .ok (some { F with
        cols := F.cols ++ [(sample_weight, List.replicate F.nrows WVal.nan)] }) ∧
    bundle_weights true sample_weight name false (some F) none =
      .error (sample_weight, name) := by
  constructor <;> rfl

/-- C3: a validation split that has the label column and loses every row to
the fitted cleaner is discarded: the function returns exactly
`(None, None, None, holdout_frac_og)` without raising. -/
theorem C3_emptied_val_split_discarded (keep : Nat → Bool) (enc : Nat → Nat)
    (mkw : List Nat → Option (List ℚ)) (y_og : List Nat)
    (holdout_frac holdout_frac_og : ℚ) (name : String)
    (hall : y_og.filter keep = []) :
    _apply_cleaner_transform keep enc mkw (some { labelCol := some y_og })
      holdout_frac holdout_frac_og name false =
      .ok (none, none, none, holdout_frac_og) := by
  rw [_apply_cleaner_transform]
  simp [hall]

/-- Closed instance of `C3_emptied_val_split_discarded`: a one-row
validation split whose class the cleaner dropped. -/
theorem C3_witness :
    _apply_cleaner_transform (fun v => decide (v ≤ 1)) (fun v => v) (fun _ => none)
      (some { labelCol := some [5] }) (1 : ℚ) (1 / 10 : ℚ) "val" false =
      .ok (none, none, none, (1 / 10 : ℚ)) :=
  C3_emptied_val_split_discarded (fun v => decide (v ≤ 1)) (fun v => v) (fun _ => none)
    [5] 1 (1 / 10) "val" (by decide)

/-- C6: when the generator already reports `is_fit()`, the step leaves the
fitted state unchanged (so at most one fit ever happens), its result does
not depend on the fitting algorithm (`fit_transform` is never invoked),
and a second call on identical input produces identical output. -/
theorem C6_transform_only_when_fit
    (learn learn2 : List Nat → (List Nat → List Nat)) (g : FeatureGenerator)
    (X_super : List Nat) (X_test : Option (List Nat)) (h : g.is_fit = true) :
    (gdp_feature_step learn g X_super X_test).1 = g ∧
    gdp_feature_step learn g X_super X_test = gdp_feature_step learn2 g X_super X_test ∧
    gdp_feature_step learn ((gdp_feature_step learn g X_super X_test).1) X_super X_test =
      gdp_feature_step learn g X_super X_test := by
  simp [gdp_feature_step, h]

/-- Closed instance of `C6_transform_only_when_fit` with a fitted reversing
generator. -/
theorem C6_witness :
    (gdp_feature_step (fun _ => fun X => X)
      { fitted := some List.reverse } [1, 2] (some [3])).1 =
      { fitted := some List.reverse } ∧
    gdp_feature_step (fun _ => fun X => X)
        { fitted := some List.reverse } [1, 2] (some [3]) =
      gdp_feature_step (fun _ => fun X => [])
        { fitted := some List.reverse } [1, 2] (some [3]) ∧
    gdp_feature_step (fun _ => fun X => X)
        ((gdp_feature_step (fun _ => fun X => X)
          { fitted := some List.reverse } [1, 2] (some [3])).1) [1, 2] (some [3]) =
      gdp_feature_step (fun _ => fun X => X)
        { fitted := some List.reverse } [1, 2] (some [3]) :=
  C6_transform_only_when_fit (fun _ => fun X => X) (fun _ => fun X => [])
    { fitted := some List.reverse } [1, 2] (some [3]) rfl

theorem resplit_spec (xs : List Nat) :
    ∀ (ds : List (Option SFrame)) (idx : Nat),
      idx + (((ds.filterMap id).map (fun F => F.rows.length)).sum) ≤ xs.length →
      List.Forall₂ SplitMatches ds (resplit xs idx ds) ∧
      (((resplit xs idx ds).filterMap id).map (fun F => F.rows.length)).sum =
        ((ds.filterMap id).map (fun F => F.rows.length)).sum := by
  intro ds
  induction ds with
  | nil => intro idx _; exact ⟨List.Forall₂.nil, rfl⟩
  | cons o rest ih =>
    intro idx hle
    match o with
    | none =>
      have hfc : List.filterMap id (none :: rest) = List.filterMap id rest := rfl
      rw [hfc] at hle
      have h := ih idx hle
      refine ⟨List.Forall₂.cons trivial h.1, ?_⟩
      rw [resplit]
      have hfc2 : List.filterMap id (none :: resplit xs idx rest) =
          List.filterMap id (resplit xs idx rest) := rfl
      rw [hfc2, h.2, hfc]
    | some F =>
      have hfc : List.filterMap id (some F :: rest) = F :: List.filterMap id rest := rfl
      rw [hfc, List.map_cons, List.sum_cons] at hle
      have hle' : idx + F.rows.length +
          (((rest.filterMap id).map (fun F => F.rows.length)).sum) ≤ xs.length := by
        omega
      have h := ih (idx + F.rows.length) hle'
      have hlen : ((xs.drop idx).take F.rows.length).length = F.rows.length := by
        rw [List.length_take, List.length_drop]
        omega
      refine ⟨List.Forall₂.cons ⟨rfl, hlen⟩ h.1, ?_⟩
      rw [resplit]
      have hfc2 : List.filterMap id
          (some { index := F.index, rows := (xs.drop idx).take F.rows.length } ::
            resplit xs (idx + F.rows.length) rest) =
          { index := F.index, rows := (xs.drop idx).take F.rows.length } ::
            List.filterMap id (resplit xs (idx + F.rows.length) rest) := rfl
      rw [hfc2, hfc, List.map_cons, List.sum_cons, List.map_cons, List.sum_cons]
      rw [h.2]
      exact congrArg (fun n => n + _) hlen

/-- C5: assuming the feature transform preserves row count, the
concatenate-then-resplit step of `general_data_processing` sends absent
splits to absent splits and present splits to frames with the same row
count and the exact original row index, and the output row counts sum to
the concatenated total. -/
theorem C5_concat_resplit_roundtrip (f : List Nat → List Nat)
    (hf : ∀ l, (f l).length = l.length) (datasets : List (Option SFrame)) :
    List.Forall₂ SplitMatches datasets (concat_then_resplit f datasets) ∧
    (((concat_then_resplit f datasets).filterMap id).map (fun F => F.rows.length)).sum =
      (concatRows datasets).length := by
  have htot : (concatRows datasets).length =
      ((datasets.filterMap id).map (fun F => F.rows.length)).sum := by
    rw [concatRows, List.length_join, List.map_map]
    rfl
  have h := resplit_spec (f (concatRows datasets)) datasets 0
    (by rw [hf, htot]; omega)
  exact ⟨h.1, by rw [concat_then_resplit]; rw [h.2, htot]⟩

/-- Closed instance of `C5_concat_resplit_roundtrip` with `f = id`:
a present train split, an absent validation split, an absent test slot
(`transform_with_test` is `False`) and a present unlabeled split. -/
theorem C5_witness :
    List.Forall₂ SplitMatches
      [some { index := [10, 11], rows := [1, 2] }, none, none,
        some { index := [5], rows := [3] }]
      (concat_then_resplit id
        [some { index := [10, 11], rows := [1, 2] }, none, none,
          some { index := [5], rows := [3] }]) ∧
    (((concat_then_resplit id
        [some { index := [10, 11], rows := [1, 2] }, none, none,
          some { index := [5], rows := [3] }]).filterMap id).map
        (fun F => F.rows.length)).sum =
      (concatRows
        [some { index := [10, 11], rows := [1, 2] }, none, none,
          some { index := [5], rows := [3] }]).length :=
  C5_concat_resplit_roundtrip id (fun l => rfl)
    [some { index := [10, 11], rows := [1, 2] }, none, none,
      some { index := [5], rows := [3] }]

/-- In every branch `_adjust_threshold_if_necessary` returns the clamped
holdout fraction `max(holdout_frac, 1/num_rows + 0.001)` unchanged. -/
theorem adjust_holdout_component (pt : ProblemType) (y : List Nat)
    (t : Nat) (hf : ℚ) (k : Nat) (h0 : y.length ≠ 0) :
    ∃ t2 k2, adjust_threshold_if_necessary pt y t hf k =
      .ok (t2, max hf (1 / (y.length : ℚ) + 1 / 1000), k2) := by
  simp only [adjust_threshold_if_necessary, _adjust_threshold_if_necessary, if_neg h0]
  repeat' split
  all_goals exact ⟨_, _, rfl⟩

/-- C10: with a labelled validation frame supplied, the holdout fraction is
overridden to 1 before threshold adjustment regardless of the caller's
value, so `general_data_processing` returns `max(1, 1/n_rows + 0.001)` —
except that it reverts to the caller's original value exactly when the
validation split is emptied by cleaning. -/
theorem C10_holdout_overridden (pt : ProblemType) (y : List Nat) (threshold : Nat)
    (hf : ℚ) (num_bag_folds : Nat) (keep : Nat → Bool) (enc : Nat → Nat)
    (mkw : List Nat → Option (List ℚ)) (vlabels : List Nat) (hy : y ≠ []) :
    (vlabels.filter keep ≠ [] →
      gdp_holdout_frac pt y threshold hf num_bag_folds keep enc mkw
        (some { labelCol := some vlabels }) =
        .ok (max 1 (1 / (y.length : ℚ) + 1 / 1000))) ∧
    (vlabels.filter keep = [] →
      gdp_holdout_frac pt y threshold hf num_bag_folds keep enc mkw
        (some { labelCol := some vlabels }) = .ok hf) := by
  have h0 : y.length ≠ 0 := by simpa using hy
  obtain ⟨t2, k2, hadj⟩ := adjust_holdout_component pt y threshold 1 num_bag_folds h0
  constructor
  · intro hne
    have hlen : (vlabels.filter keep).length ≠ 0 := by
      simpa [List.length_eq_zero] using hne
    simp [gdp_holdout_frac, hadj, _apply_cleaner_transform, hlen, Except.bind]
    rfl
  · intro hemp
    simp [gdp_holdout_frac, hadj, _apply_cleaner_transform, hemp, Except.bind]
    rfl

/-- Closed instance of `C10_holdout_overridden` on three training rows and
a one-row validation split, in both the retained and the emptied case. -/
theorem C10_witness :
    ((([0] : List Nat).filter (fun v => decide (v ≤ 1)) ≠ [] →
      gdp_holdout_frac .binary [0, 0, 1] 1 (1 / 10) 0 (fun v => decide (v ≤ 1))
        (fun v => v) (fun _ => none) (some { labelCol := some [0] }) =
        .ok (max 1 (1 / ((3 : Nat) : ℚ) + 1 / 1000))) ∧
    (([0] : List Nat).filter (fun v => decide (v ≤ 1)) = [] →
      gdp_holdout_frac .binary [0, 0, 1] 1 (1 / 10) 0 (fun v => decide (v ≤ 1))
        (fun v => v) (fun _ => none) (some { labelCol := some [0] }) =
        .ok (1 / 10))) ∧
    (([5] : List Nat).filter (fun v => decide (v ≤ 1)) = [] →
      gdp_holdout_frac .binary [0, 0, 1] 1 (1 / 10) 0 (fun v => decide (v ≤ 1))
        (fun v => v) (fun _ => none) (some { labelCol := some [5] }) =
        .ok (1 / 10)) :=
  ⟨by
    have h := C10_holdout_overridden .binary [0, 0, 1] 1 (1 / 10) 0
      (fun v => decide (v ≤ 1)) (fun v => v) (fun _ => none) [0] (by decide)
    simpa using h,
   by
    have h := C10_holdout_overridden .binary [0, 0, 1] 1 (1 / 10) 0
      (fun v => decide (v ≤ 1)) (fun v => v) (fun _ => none) [5] (by decide)
    exact h.2⟩

theorem value_counts_yC2 : value_counts yC2 = [(0, 100), (1, 50), (2, 1)] := by decide

/-- On the C2 distribution the first feasibility check already passes at
threshold 1 (151 kept rows ≥ 148 = ceil of 97.5 percent of 151, and
3 kept classes ≥ 2), so the requested threshold is returned unchanged. -/
theorem adjust_threshold_yC2 (hf : ℚ) :
    _adjust_threshold_if_necessary .multiclass yC2 1 hf 0 =
      .ok (some 1, max hf (1 / 151 + 1 / 1000), 0) := by
  have hlen : yC2.length = 151 := by decide
  simp only [_adjust_threshold_if_necessary, hlen, value_counts_yC2, minimum_rows_to_keep_eq]
  norm_num

/-- C2 counterexample: on counts 100/50/1 with requested threshold 1 and no
bagging, `_adjust_threshold_if_necessary` does not return threshold 50. -/
theorem C2_counterexample :
    ¬ ∃ hf' k', _adjust_threshold_if_necessary .multiclass yC2 1 (1 / 10) 0 =
      .ok (some 50, hf', k') := by
  rintro ⟨hf', k', h⟩
  rw [adjust_threshold_yC2] at h
  simp at h

/-- C2 (amended): for training labels with three classes of counts 100, 50
and 1, requested threshold 1, `num_bag_folds = 0` and a multiclass problem,
`_adjust_threshold_if_necessary` returns threshold 1 — the first feasibility
check already holds, so the class with count 1 is retained, not dropped. -/
theorem C2_amended_returns_one (hf : ℚ) :
    _adjust_threshold_if_necessary .multiclass yC2 1 hf 0 =
      .ok (some 1, max hf (1 / 151 + 1 / 1000), 0) :=
  adjust_threshold_yC2 hf

/-- C9 counterexample: on an empty label series the Python code evaluates
`1 / num_rows` with `num_rows = 0` and raises `ZeroDivisionError`, so
`adjust_threshold_if_necessary` does not always return a triple. -/
theorem C9_counterexample :
    adjust_threshold_if_necessary .multiclass [] 1 (1 / 10) 0 =
      .error "ZeroDivisionError: division by zero" := by
  rfl

/-- C9 (amended): for every problem type, every non-empty training label
series and every requested threshold, holdout fraction and bagging-fold
count, `adjust_threshold_if_necessary` returns a triple without raising. -/
theorem C9_amended_never_raises (pt : ProblemType) (y : List Nat)
    (t : Nat) (hf : ℚ) (k : Nat) (hy : y ≠ []) :
    ∃ r, adjust_threshold_if_necessary pt y t hf k = .ok r := by
  have h0 : y.length ≠ 0 := by simpa using hy
  simp only [adjust_threshold_if_necessary, _adjust_threshold_if_necessary, if_neg h0]
  repeat' split
  all_goals exact ⟨_, rfl⟩

/-- Closed instance of `C9_amended_never_raises` at a concrete input. -/
theorem C9_witness :
    ∃ r, adjust_threshold_if_necessary .binary [5, 5, 7] 2 (1 / 2) 3 = .ok r :=
  C9_amended_never_raises .binary [5, 5, 7] 2 (1 / 2) 3 (by decide)

theorem minimum_rows_le_total (y : List Nat) :
    minimum_rows_to_keep (total_rows y) ≤ total_rows y := by
  rw [minimum_rows_to_keep_eq]
  omega

theorem sublist_sum_le {l1 l2 : List Nat} (h : List.Sublist l1 l2) : l1.sum ≤ l2.sum := by
  induction h with
  | slnil => exact Nat.le_refl 0
  | cons a _ ih => rw [List.sum_cons]; omega
  | cons₂ a _ ih => rw [List.sum_cons, List.sum_cons]; omega

/-- Raising the threshold keeps fewer rows and fewer classes. -/
theorem kept_antitone (y : List Nat) {s1 s2 : Nat} (h : s1 ≤ s2) :
    keptRows y s2 ≤ keptRows y s1 ∧ keptClasses y s2 ≤ keptClasses y s1 := by
  have hsub : List.Sublist ((value_counts y).filter (fun p => decide (s2 ≤ p.2)))
      ((value_counts y).filter (fun p => decide (s1 ≤ p.2))) := by
    apply List.monotone_filter_right
    intro p hp
    simp only [decide_eq_true_eq] at hp ⊢
    omega
  exact ⟨sublist_sum_le (hsub.map (fun p => p.2)), hsub.length_le⟩

/-- In a descending count table the entries that clear a threshold form a
prefix. -/
theorem filter_ge_eq_take {cc : List (Nat × Nat)} (hs : cc.Sorted descBySnd) (s : Nat) :
    ∃ k, cc.filter (fun p => decide (s ≤ p.2)) = cc.take k := by
  induction cc with
  | nil => exact ⟨0, rfl⟩
  | cons p rest ih =>
    rw [List.sorted_cons] at hs
    obtain ⟨hp, hrest⟩ := hs
    by_cases hsp : s ≤ p.2
    · obtain ⟨k, hk⟩ := ih hrest
      refine ⟨k + 1, ?_⟩
      rw [List.take_succ_cons, List.filter_cons_of_pos (by simpa using hsp), hk]
    · refine ⟨0, ?_⟩
      rw [List.take_zero, List.filter_cons_of_neg (by simpa using hsp)]
      rw [List.filter_eq_nil]
      intro q hq
      have := hp q hq
      simp only [descBySnd] at this
      simp only [decide_eq_true_eq]
      omega

/-- In a descending count table every entry of the prefix up to index `j`
has a count at least that of entry `j`. -/
theorem take_count_ge {cc : List (Nat × Nat)} (hs : cc.Sorted descBySnd) :
    ∀ (j : Nat) (hj : j < cc.length) (x : Nat × Nat), x ∈ cc.take (j + 1) →
      (cc.get ⟨j, hj⟩).2 ≤ x.2 := by
  induction cc with
  | nil => intro j hj; exact absurd hj (Nat.not_lt_zero j)
  | cons p rest ih =>
    rw [List.sorted_cons] at hs
    obtain ⟨hp, hrest⟩ := hs
    intro j hj x hx
    match j with
    | 0 =>
      rw [List.take_succ_cons, List.take_zero] at hx
      rcases List.mem_singleton.mp hx with rfl
      exact Nat.le_refl _
    | Nat.succ j2 =>
      rw [List.take_succ_cons] at hx
      rcases List.mem_cons.mp hx with rfl | hx
      · have hmem : rest.get ⟨j2, Nat.lt_of_succ_lt_succ hj⟩ ∈ rest :=
          List.get_mem rest j2 (Nat.lt_of_succ_lt_succ hj)
        exact hp _ hmem
      · exact ih hrest j2 (Nat.lt_of_succ_lt_succ hj) x hx

/-- The greedy loop of lines 449-457 stops at the first prefix satisfying
both minimums whenever the whole table satisfies them. -/
theorem greedy_break :
    ∀ (cc : List (Nat × Nat)) (m a b : Nat) (cur : Option Nat),
      cc ≠ [] →
      m ≤ a + (cc.map (fun p => p.2)).sum →
      2 ≤ b + cc.length →
      ∃ j, ∃ hj : j < cc.length,
        greedyThreshold cc m a b cur = some ((cc.get ⟨j, hj⟩).2) ∧
        m ≤ a + ((cc.take (j + 1)).map (fun p => p.2)).sum ∧
        2 ≤ b + (j + 1) ∧
        ∀ j2, j2 < j →
          ¬(m ≤ a + ((cc.take (j2 + 1)).map (fun p => p.2)).sum ∧ 2 ≤ b + (j2 + 1)) := by
  intro cc
  induction cc with
  | nil => intro m a b cur hne; exact absurd rfl hne
  | cons p rest ih =>
    intro m a b cur _ hrows hcls
    by_cases hcond : m ≤ a + p.2 ∧ 2 ≤ b + 1
    · refine ⟨0, Nat.succ_pos _, ?_, ?_, ?_, ?_⟩
      · rw [greedyThreshold, if_pos hcond]
        rfl
      · simpa using hcond.1
      · simpa using hcond.2
      · intro j2 hj2; exact absurd hj2 (Nat.not_lt_zero j2)
    · match rest with
      | [] =>
        exfalso
        apply hcond
        constructor
        · simpa using hrows
        · simpa using hcls
      | q :: rest2 =>
        have hrows2 : m ≤ (a + p.2) + ((q :: rest2).map (fun p => p.2)).sum := by
          simp only [List.map_cons, List.sum_cons] at hrows ⊢
          omega
        have hcls2 : 2 ≤ (b + 1) + (q :: rest2).length := by
          simp only [List.length_cons] at hcls ⊢
          omega
        obtain ⟨j2, hj2, heq, hrow3, hcls3, hmin⟩ :=
          ih m (a + p.2) (b + 1) (some p.2) (by simp) hrows2 hcls2
        refine ⟨j2 + 1, Nat.succ_lt_succ hj2, ?_, ?_, ?_, ?_⟩
        · rw [greedyThreshold, if_neg hcond]
          rw [heq]
          rfl
        · rw [List.take_succ_cons, List.map_cons, List.sum_cons]
          omega
        · omega
        · intro j3 hj3
          match j3 with
          | 0 =>
            intro hc
            apply hcond
            refine ⟨?_, by omega⟩
            rw [List.take_succ_cons, List.take_zero] at hc
            simpa using hc.1
          | Nat.succ j4 =>
            intro hc
            apply hmin j4 (Nat.lt_of_succ_lt_succ hj3)
            rw [List.take_succ_cons, List.map_cons, List.sum_cons] at hc
            exact ⟨by omega, by omega⟩

theorem adjust_eq_result (pt : ProblemType) (y : List Nat) (t : Nat) (hf : ℚ) (k : Nat)
    (hpt : ¬(pt = .regression ∨ pt = .quantile)) (h0 : y.length ≠ 0) :
    _adjust_threshold_if_necessary pt y t hf k =
      .ok (adjust_threshold_result y t k,
        max hf (1 / (y.length : ℚ) + 1 / 1000), min k y.length) := by
  simp only [_adjust_threshold_if_necessary, adjust_threshold_result, clamped_threshold,
    keptRows, keptClasses, total_rows, if_neg h0, if_neg hpt]
  repeat' split
  all_goals rfl

theorem get_mem_take {α : Type} :
    ∀ (l : List α) (j kk : Nat) (hj : j < l.length), j < kk → l.get ⟨j, hj⟩ ∈ l.take kk := by
  intro l
  induction l with
  | nil => intro j kk hj; exact absurd hj (Nat.not_lt_zero j)
  | cons a rest ih =>
    intro j kk hj hjk
    match kk with
    | 0 => exact absurd hjk (Nat.not_lt_zero j)
    | kk2 + 1 =>
      rw [List.take_succ_cons]
      match j with
      | 0 => exact List.mem_cons_self _ _
      | j2 + 1 =>
        exact List.mem_cons_of_mem a
          (ih j2 kk2 (Nat.lt_of_succ_lt_succ hj) (Nat.lt_of_succ_lt_succ hjk))

/-- On at least two classes, the greedy fallback threshold satisfies both
minimums, and it bounds from above every threshold that satisfies them. -/
theorem greedy_feasible_and_max (y : List Nat) (hy : y ≠ [])
    (h2 : 2 ≤ (value_counts y).length) :
    ∃ R, greedyThreshold (value_counts y) (minimum_rows_to_keep (total_rows y)) 0 0 none =
        some R ∧
      minimum_rows_to_keep (total_rows y) ≤ keptRows y R ∧ 2 ≤ keptClasses y R ∧
      ∀ s, minimum_rows_to_keep (total_rows y) ≤ keptRows y s ∧ 2 ≤ keptClasses y s →
        s ≤ R := by
  set cc := value_counts y with hcc
  have hsort : cc.Sorted descBySnd := value_counts_sorted y
  have hne : cc ≠ [] := value_counts_ne_nil hy
  have htotal : total_rows y = (cc.map (fun p => p.2)).sum := by rw [hcc]; rfl
  have hm : minimum_rows_to_keep (total_rows y) ≤ 0 + (cc.map (fun p => p.2)).sum := by
    have h := minimum_rows_le_total y
    omega
  obtain ⟨j, hj, heq, hrow, hcls, hmin⟩ :=
    greedy_break cc (minimum_rows_to_keep (total_rows y)) 0 0 none hne hm (by omega)
  refine ⟨(cc.get ⟨j, hj⟩).2, heq, ?_, ?_, ?_⟩
  · have htg := take_count_ge hsort j hj
    have hfself : (cc.take (j + 1)).filter
        (fun p => decide ((cc.get ⟨j, hj⟩).2 ≤ p.2)) = cc.take (j + 1) := by
      rw [List.filter_eq_self]
      intro x hx
      simpa using htg x hx
    have hsubl : List.Sublist (cc.take (j + 1))
        (cc.filter (fun p => decide ((cc.get ⟨j, hj⟩).2 ≤ p.2))) := by
      rw [← hfself]
      exact (List.take_sublist (j + 1) cc).filter _
    have hsum := sublist_sum_le (hsubl.map (fun p => p.2))
    rw [keptRows, ← hcc]
    omega
  · have htg := take_count_ge hsort j hj
    have hfself : (cc.take (j + 1)).filter
        (fun p => decide ((cc.get ⟨j, hj⟩).2 ≤ p.2)) = cc.take (j + 1) := by
      rw [List.filter_eq_self]
      intro x hx
      simpa using htg x hx
    have hsubl : List.Sublist (cc.take (j + 1))
        (cc.filter (fun p => decide ((cc.get ⟨j, hj⟩).2 ≤ p.2))) := by
      rw [← hfself]
      exact (List.take_sublist (j + 1) cc).filter _
    have hlen := hsubl.length_le
    have hlent : (cc.take (j + 1)).length = j + 1 := by
      rw [List.length_take]
      omega
    rw [keptClasses, ← hcc]
    omega
  · intro s hfeas
    have hfeasR : minimum_rows_to_keep (total_rows y) ≤
        ((cc.filter (fun p => decide (s ≤ p.2))).map (fun p => p.2)).sum := by
      have h := hfeas.1
      rw [keptRows, ← hcc] at h
      exact h
    have hfeasC : 2 ≤ (cc.filter (fun p => decide (s ≤ p.2))).length := by
      have h := hfeas.2
      rw [keptClasses, ← hcc] at h
      exact h
    obtain ⟨kk, hkk⟩ := filter_ge_eq_take hsort s
    have hkle : (cc.filter (fun p => decide (s ≤ p.2))).length ≤ cc.length :=
      List.length_filter_le _ cc
    set k2 := (cc.filter (fun p => decide (s ≤ p.2))).length with hk2def
    have htk : cc.take k2 = cc.filter (fun p => decide (s ≤ p.2)) := by
      by_cases hkcase : kk ≤ cc.length
      · have hkeq : k2 = kk := by
          rw [hk2def, hkk, List.length_take]
          omega
        rw [hkeq, hkk]
      · have hccall : cc.take kk = cc := List.take_of_length_le (by omega)
        have hkeq : k2 = cc.length := by
          rw [hk2def, hkk, List.length_take]
          omega
        rw [hkeq, List.take_length, hkk, hccall]
    have hjk : j < k2 := by
      by_contra hjge
      have hcond : minimum_rows_to_keep (total_rows y) ≤
          0 + ((cc.take (k2 - 1 + 1)).map (fun p => p.2)).sum ∧
          2 ≤ 0 + (k2 - 1 + 1) := by
        have hk21 : k2 - 1 + 1 = k2 := by omega
        rw [hk21, htk]
        exact ⟨by omega, by omega⟩
      exact hmin (k2 - 1) (by omega) hcond
    have hmemtake : cc.get ⟨j, hj⟩ ∈ cc.take k2 := get_mem_take cc j k2 hj hjk
    rw [htk] at hmemtake
    have hdec := (List.mem_filter.mp hmemtake).2
    simpa using hdec

/-- With a single class no threshold can keep two classes, and the greedy
loop returns the count of that (only, hence last) class. -/
theorem greedy_single_class (y : List Nat) (p : Nat × Nat)
    (h1 : value_counts y = [p]) :
    greedyThreshold (value_counts y) (minimum_rows_to_keep (total_rows y)) 0 0 none =
      some p.2 ∧
    (∀ s, ¬(minimum_rows_to_keep (total_rows y) ≤ keptRows y s ∧ 2 ≤ keptClasses y s)) ∧
    (value_counts y).getLast? = some p := by
  refine ⟨?_, ?_, ?_⟩
  · rw [h1, greedyThreshold, if_neg (by omega), greedyThreshold]
  · intro s hfeas
    have := hfeas.2
    rw [keptClasses, h1] at this
    have hle := List.length_filter_le (fun p => decide (s ≤ p.2)) [p]
    simp only [List.length_singleton] at hle
    omega
  · rw [h1]
    rfl

/-- Monotonicity of the returned threshold in the requested threshold. -/
theorem adjust_result_mono (y : List Nat) (hy : y ≠ []) (k : Nat) {t1 t2 : Nat}
    (h12 : t1 ≤ t2) {T1 T2 : Nat}
    (hr1 : adjust_threshold_result y t1 k = some T1)
    (hr2 : adjust_threshold_result y t2 k = some T2) : T1 ≤ T2 := by
  have hs12 : clamped_threshold t1 k y.length ≤ clamped_threshold t2 k y.length := by
    rw [clamped_threshold, clamped_threshold]
    split_ifs <;> omega
  rw [adjust_threshold_result] at hr1 hr2
  by_cases h1 : minimum_rows_to_keep (total_rows y) ≤
      keptRows y (clamped_threshold t1 k y.length) ∧
      2 ≤ keptClasses y (clamped_threshold t1 k y.length)
  · rw [if_pos h1] at hr1
    by_cases h2 : minimum_rows_to_keep (total_rows y) ≤
        keptRows y (clamped_threshold t2 k y.length) ∧
        2 ≤ keptClasses y (clamped_threshold t2 k y.length)
    · rw [if_pos h2] at hr2
      have e1 : T1 = clamped_threshold t1 k y.length := (Option.some.injEq _ _).mp hr1.symm
      have e2 : T2 = clamped_threshold t2 k y.length := (Option.some.injEq _ _).mp hr2.symm
      omega
    · rw [if_neg h2] at hr2
      have hcc2 : 2 ≤ (value_counts y).length := by
        have := h1.2
        rw [keptClasses] at this
        have hle := List.length_filter_le
          (fun p => decide (clamped_threshold t1 k y.length ≤ p.2)) (value_counts y)
        omega
      obtain ⟨R, hg, _, _, hmax⟩ := greedy_feasible_and_max y hy hcc2
      rw [hg] at hr2
      have e1 : T1 = clamped_threshold t1 k y.length := (Option.some.injEq _ _).mp hr1.symm
      have e2 : T2 = R := (Option.some.injEq _ _).mp hr2.symm
      have := hmax (clamped_threshold t1 k y.length) h1
      omega
  · rw [if_neg h1] at hr1
    by_cases h2 : minimum_rows_to_keep (total_rows y) ≤
        keptRows y (clamped_threshold t2 k y.length) ∧
        2 ≤ keptClasses y (clamped_threshold t2 k y.length)
    · exfalso
      have hanti := kept_antitone y hs12
      exact h1 ⟨Nat.le_trans h2.1 hanti.1, Nat.le_trans h2.2 hanti.2⟩
    · rw [if_neg h2] at hr2
      rw [hr1] at hr2
      have e := (Option.some.injEq _ _).mp hr2
      omega

/-- C1: on binary/multiclass with non-empty labels,
`_adjust_threshold_if_necessary` returns a threshold that either keeps at
least `ceil(0.975 * total_rows)` rows and at least 2 classes, or — when no
threshold can do both — is the count of the last class of the descending
count table; and the returned threshold is monotone in the requested one. -/
theorem C1_threshold_guarantee (pt : ProblemType) (hpt : pt = .binary ∨ pt = .multiclass)
    (y : List Nat) (hy : y ≠ []) (threshold : Nat) (hf : ℚ) (num_bag_folds : Nat) :
    (∃ T hf2 k2,
      _adjust_threshold_if_necessary pt y threshold hf num_bag_folds =
        .ok (some T, hf2, k2) ∧
      ((minimum_rows_to_keep (total_rows y) ≤ keptRows y T ∧ 2 ≤ keptClasses y T) ∨
       ((∀ s, ¬(minimum_rows_to_keep (total_rows y) ≤ keptRows y s ∧
          2 ≤ keptClasses y s)) ∧
        some T = ((value_counts y).getLast?).map (fun p => p.2)))) ∧
    (∀ t1 t2 T1 T2 hf1 hf2 k1 k2, t1 ≤ t2 →
      _adjust_threshold_if_necessary pt y t1 hf num_bag_folds = .ok (some T1, hf1, k1) →
      _adjust_threshold_if_necessary pt y t2 hf num_bag_folds = .ok (some T2, hf2, k2) →
      T1 ≤ T2) := by
  have hpt2 : ¬(pt = .regression ∨ pt = .quantile) := by
    rcases hpt with rfl | rfl <;> simp
  have h0 : y.length ≠ 0 := by simpa using hy
  constructor
  · rw [adjust_eq_result pt y threshold hf num_bag_folds hpt2 h0]
    rw [adjust_threshold_result]
    by_cases hcond : minimum_rows_to_keep (total_rows y) ≤
        keptRows y (clamped_threshold threshold num_bag_folds y.length) ∧
        2 ≤ keptClasses y (clamped_threshold threshold num_bag_folds y.length)
    · rw [if_pos hcond]
      exact ⟨_, _, _, rfl, Or.inl hcond⟩
    · rw [if_neg hcond]
      have hne := value_counts_ne_nil hy
      match hlen : (value_counts y).length, hne with
      | 0, hne => exact absurd (List.length_eq_zero.mp hlen) hne
      | 1, hne =>
        obtain ⟨p, hp⟩ := List.length_eq_one.mp hlen
        obtain ⟨hg, hnofeas, hlast⟩ := greedy_single_class y p hp
        refine ⟨p.2, _, _, by rw [hg], Or.inr ⟨hnofeas, ?_⟩⟩
        rw [hlast]
        rfl
      | n + 2, hne =>
        obtain ⟨R, hg, hrows, hcls, _⟩ :=
          greedy_feasible_and_max y hy (by omega)
        exact ⟨R, _, _, by rw [hg], Or.inl ⟨hrows, hcls⟩⟩
  · intro t1 t2 T1 T2 hf1 hf2 k1 k2 h12 h1 h2
    rw [adjust_eq_result pt y t1 hf num_bag_folds hpt2 h0] at h1
    rw [adjust_eq_result pt y t2 hf num_bag_folds hpt2 h0] at h2
    simp only [Except.ok.injEq, Prod.mk.injEq] at h1 h2
    exact adjust_result_mono y hy num_bag_folds h12 h1.1 h2.1

/-- Closed instance of `C1_threshold_guarantee` on the labels `[0, 0, 1]`. -/
theorem C1_witness :
    (∃ T hf2 k2,
      _adjust_threshold_if_necessary .multiclass [0, 0, 1] 1 (1 / 10) 0 =
        .ok (some T, hf2, k2) ∧
      ((minimum_rows_to_keep (total_rows [0, 0, 1]) ≤ keptRows [0, 0, 1] T ∧
          2 ≤ keptClasses [0, 0, 1] T) ∨
       ((∀ s, ¬(minimum_rows_to_keep (total_rows [0, 0, 1]) ≤ keptRows [0, 0, 1] s ∧
          2 ≤ keptClasses [0, 0, 1] s)) ∧
        some T = ((value_counts [0, 0, 1]).getLast?).map (fun p => p.2)))) ∧
    (∀ t1 t2 T1 T2 hf1 hf2 k1 k2, t1 ≤ t2 →
      _adjust_threshold_if_necessary .multiclass [0, 0, 1] t1 (1 / 10) 0 =
        .ok (some T1, hf1, k1) →
      _adjust_threshold_if_necessary .multiclass [0, 0, 1] t2 (1 / 10) 0 =
        .ok (some T2, hf2, k2) →
      T1 ≤ T2) :=
  C1_threshold_guarantee .multiclass (Or.inr rfl) [0, 0, 1] (by decide) 1 (1 / 10) 0

end AutogluonLearner
